import Mathlib

set_option autoImplicit false

/-!
Verification of the Block-STM parallel EVM core (`block-stm-revm`).

We shallowly embed the data model of `lib.rs`, the multi-version memory of
`mv_memory.rs`, the VM adapter of `vm.rs` and the dependency preprocessing of
`pevm.rs`.  Machine integers (`usize`, `U256`, `u8`) are modelled as `Nat`,
with explicit `% 2 ^ 256` (resp. `% 2 ^ 8`) where the Rust code can wrap.
Concurrent maps (`DashMap`, per-location `BTreeMap`s) are modelled as
functions into association lists; iterating a `BTreeMap` range backwards is
modelled as walking a list that is sorted by strictly descending keys.
-/

namespace BlockSTM

/-! ### Data model (`lib.rs`) -/

/-- `TxIdx`: position of a transaction in the block, 0-based (`usize`). -/
abbrev TxIdx := Nat

/-- `TxIncarnation`: the i-th re-execution of a transaction (`usize`). -/
abbrev TxIncarnation := Nat

/-- Memory locations are identified by their 64-bit hash
(`MemoryLocationHash`); we model hashes as plain naturals. -/
abbrev Loc := Nat

/-- `U256` values wrap modulo `2 ^ 256`. -/
def U256MOD : Nat := 2 ^ 256

/-- `U256` addition (wrapping model of `ruint` addition). -/
def u256add (a b : Nat) : Nat := (a + b) % U256MOD

/-- `U256` multiplication (wrapping model of `ruint` multiplication). -/
def u256mul (a b : Nat) : Nat := (a * b) % U256MOD

/-- The code hash of empty code (`KECCAK_EMPTY`), modelled abstractly. -/
def keccakEmpty : Nat := 0

/-- `revm` `AccountInfo`: balance, nonce and code hash (the loaded code
itself is excluded from `PartialEq`, so we drop it). -/
structure AccountInfo where
  balance : Nat
  nonce : Nat
  codeHash : Nat
  deriving DecidableEq, Repr

/-- `AccountInfo::default()`. -/
def AccountInfo.default : AccountInfo := ⟨0, 0, keccakEmpty⟩

/-- `AccountInfo::from_balance(balance)`. -/
def AccountInfo.from_balance (balance : Nat) : AccountInfo :=
  ⟨balance, 0, keccakEmpty⟩

/-- `AccountInfo::is_empty_code_hash`. -/
def AccountInfo.is_empty_code_hash (a : AccountInfo) : Bool :=
  a.codeHash = keccakEmpty

/-- `TxVersion`: the pair (transaction index, incarnation). -/
structure TxVersion where
  tx_idx : TxIdx
  tx_incarnation : TxIncarnation
  deriving DecidableEq, Repr

/-- `MemoryValue` (`lib.rs`). -/
inductive MemoryValue where
  | Basic (info : AccountInfo)
  | LazyBalanceAddition (delta : Nat)
  | Storage (value : Nat)
  deriving DecidableEq, Repr

/-- `MemoryEntry` (`mv_memory.rs`): a write of an incarnation, or the
`Estimate` marker left behind by an aborted incarnation. -/
inductive MemoryEntry where
  | Data (inc : TxIncarnation) (value : MemoryValue)
  | Estimate
  deriving DecidableEq, Repr

/-- `ReadOrigin` (`lib.rs`): where a speculative read got its value. -/
inductive ReadOrigin where
  | MvMemory (version : TxVersion)
  | Storage
  deriving DecidableEq, Repr

/-- `ReadMemoryResult` (`mv_memory.rs`). -/
inductive ReadMemoryResult where
  | NotFound
  | ReadError (blocking_tx_idx : TxIdx)
  | Ok (version : TxVersion) (value : MemoryValue)
  deriving DecidableEq, Repr

/-- Pointwise update of a map modelled as a function. -/
def updateFun {α β : Type} [DecidableEq α] (f : α → β) (a : α) (b : β) : α → β :=
  fun x => if x = a then b else f x

/-! ### Multi-version memory (`mv_memory.rs`)

`MvMemory.data` maps a location to its per-transaction entry map
(`DashMap<TxIdx, MemoryEntry>`), modelled as an association list with
distinct keys.  An absent location is the empty list. -/

structure MvMemory where
  data : Loc → List (TxIdx × MemoryEntry)
  last_written_locations : TxIdx → List Loc
  last_read_set : TxIdx → List (Loc × ReadOrigin)

/-- The scan of `MvMemory::read`: walk every entry of the per-location map
and keep the entry with the largest index strictly below `tx_idx`. -/
def readScan (tx_idx : TxIdx) (entries : List (TxIdx × MemoryEntry)) :
    Option (TxIdx × MemoryEntry) :=
  entries.foldl
    (fun result e =>
      if e.1 < tx_idx then
        match result with
        | none => some e
        | some r => if r.1 < e.1 then some e else result
      else result)
    none

/-- `MvMemory::read`: the highest entry strictly below the reader.
`Estimate` becomes a read error blocking on that index; `Data` is returned
with its version; an empty scan is `NotFound`. -/
def MvMemory.read (m : MvMemory) (location : Loc) (tx_idx : TxIdx) :
    ReadMemoryResult :=
  match readScan tx_idx (m.data location) with
  | none => .NotFound
  | some (blocking_tx_idx, .Estimate) => .ReadError blocking_tx_idx
  | some (max_idx, .Data tx_incarnation value) =>
      .Ok ⟨max_idx, tx_incarnation⟩ value

/-- `DashMap::insert` on a per-location map: replace the entry at the key,
keeping keys distinct. -/
def mapInsertEntry (m : List (TxIdx × MemoryEntry)) (k : TxIdx)
    (v : MemoryEntry) : List (TxIdx × MemoryEntry) :=
  (k, v) :: m.filter (fun p => p.1 ≠ k)

/-- `DashMap::remove` on a per-location map. -/
def mapRemoveEntry (m : List (TxIdx × MemoryEntry)) (k : TxIdx) :
    List (TxIdx × MemoryEntry) :=
  m.filter (fun p => p.1 ≠ k)

/-- `MvMemory::record`: store the read set, insert `Data` entries for the
write set, remember the written locations, delete entries of previously
written locations that are now absent, and report whether a location was
written that the previous incarnation did not write. -/
def MvMemory.record (m : MvMemory) (tx_version : TxVersion)
    (read_set : List (Loc × ReadOrigin)) (write_set : List (Loc × MemoryValue)) :
    MvMemory × Bool :=
  let last_read_set' := updateFun m.last_read_set tx_version.tx_idx read_set
  let data1 := write_set.foldl
    (fun d lv =>
      updateFun d lv.1
        (mapInsertEntry (d lv.1) tx_version.tx_idx
          (.Data tx_version.tx_incarnation lv.2)))
    m.data
  let prev_locations := m.last_written_locations tx_version.tx_idx
  let new_locations := write_set.map Prod.fst
  let last_written' :=
    updateFun m.last_written_locations tx_version.tx_idx new_locations
  let data2 := prev_locations.foldl
    (fun d prev_location =>
      if new_locations.contains prev_location then d
      else updateFun d prev_location
        (mapRemoveEntry (d prev_location) tx_version.tx_idx))
    data1
  (⟨data2, last_written', last_read_set'⟩,
   new_locations.any (fun nl => !prev_locations.contains nl))

/-- `MvMemory::validate_read_set`: re-read every location of the recorded
read set at the same index and compare against the recorded origin. -/
def MvMemory.validate_read_set (m : MvMemory) (tx_idx : TxIdx) : Bool :=
  (m.last_read_set tx_idx).all fun lo =>
    match m.read lo.1 tx_idx with
    | .ReadError _ => false
    | .NotFound => decide (lo.2 = ReadOrigin.Storage)
    | .Ok version _ =>
        match lo.2 with
        | .Storage => false
        | .MvMemory v => decide (v = version)

/-! ### Lemmas about the `MvMemory::read` scan -/

/-- The step of the `MvMemory::read` scan, named for the proofs. -/
def readScanStep (tx_idx : TxIdx) (result : Option (TxIdx × MemoryEntry))
    (e : TxIdx × MemoryEntry) : Option (TxIdx × MemoryEntry) :=
  if e.1 < tx_idx then
    match result with
    | none => some e
    | some r => if r.1 < e.1 then some e else result
  else result

theorem readScan_eq_foldl (r : TxIdx) (l : List (TxIdx × MemoryEntry)) :
    readScan r l = l.foldl (readScanStep r) none := rfl

theorem readScanStep_cases (r : TxIdx) (acc : Option (TxIdx × MemoryEntry))
    (e : TxIdx × MemoryEntry) :
    readScanStep r acc e = acc ∨ (readScanStep r acc e = some e ∧ e.1 < r) := by
  unfold readScanStep
  by_cases h : e.1 < r
  · cases acc with
    | none => exact Or.inr ⟨by simp [h], h⟩
    | some a =>
      by_cases h2 : a.1 < e.1
      · exact Or.inr ⟨by simp [h, h2], h⟩
      · exact Or.inl (by simp [h, h2])
  · exact Or.inl (by simp [h])

theorem readScanStep_mono (r : TxIdx) (acc : Option (TxIdx × MemoryEntry))
    (e : TxIdx × MemoryEntry) (a : TxIdx × MemoryEntry) (ha : acc = some a) :
    ∃ b, readScanStep r acc e = some b ∧ a.1 ≤ b.1 := by
  subst ha
  unfold readScanStep
  by_cases h : e.1 < r
  · by_cases h2 : a.1 < e.1
    · exact ⟨e, by simp [h, h2], Nat.le_of_lt h2⟩
    · exact ⟨a, by simp [h, h2], Nat.le_refl _⟩
  · exact ⟨a, by simp [h], Nat.le_refl _⟩

theorem readScanStep_lt (r : TxIdx) (acc : Option (TxIdx × MemoryEntry))
    (e : TxIdx × MemoryEntry) (he : e.1 < r) :
    ∃ b, readScanStep r acc e = some b ∧ e.1 ≤ b.1 := by
  unfold readScanStep
  cases acc with
  | none => exact ⟨e, by simp [he], Nat.le_refl _⟩
  | some a =>
    by_cases h2 : a.1 < e.1
    · exact ⟨e, by simp [he, h2], Nat.le_refl _⟩
    · exact ⟨a, by simp [he, h2], Nat.le_of_not_lt h2⟩

theorem readScan_foldl_origin (r : TxIdx) :
    ∀ (l : List (TxIdx × MemoryEntry)) (acc : Option (TxIdx × MemoryEntry)),
      l.foldl (readScanStep r) acc = acc ∨
      ∃ p ∈ l, l.foldl (readScanStep r) acc = some p ∧ p.1 < r := by
  intro l
  induction l with
  | nil => intro acc; exact Or.inl rfl
  | cons e rest ih =>
    intro acc
    rw [List.foldl_cons]
    rcases ih (readScanStep r acc e) with h | ⟨p, hp, hfold, hlt⟩
    · rw [h]
      rcases readScanStep_cases r acc e with h2 | ⟨h2, hlt⟩
      · exact Or.inl h2
      · exact Or.inr ⟨e, List.mem_cons_self _ _, h2, hlt⟩
    · exact Or.inr ⟨p, List.mem_cons_of_mem _ hp, hfold, hlt⟩

theorem readScan_foldl_ge_acc (r : TxIdx) :
    ∀ (l : List (TxIdx × MemoryEntry)) (acc : Option (TxIdx × MemoryEntry))
      (a : TxIdx × MemoryEntry), acc = some a →
      ∃ q, l.foldl (readScanStep r) acc = some q ∧ a.1 ≤ q.1 := by
  intro l
  induction l with
  | nil => intro acc a ha; exact ⟨a, ha, Nat.le_refl _⟩
  | cons e rest ih =>
    intro acc a ha
    rw [List.foldl_cons]
    obtain ⟨b, hb, hab⟩ := readScanStep_mono r acc e a ha
    obtain ⟨q, hq, hbq⟩ := ih (readScanStep r acc e) b hb
    exact ⟨q, hq, Nat.le_trans hab hbq⟩

theorem readScan_foldl_ge_mem (r : TxIdx) :
    ∀ (l : List (TxIdx × MemoryEntry)) (acc : Option (TxIdx × MemoryEntry))
      (p : TxIdx × MemoryEntry), p ∈ l → p.1 < r →
      ∃ q, l.foldl (readScanStep r) acc = some q ∧ p.1 ≤ q.1 := by
  intro l
  induction l with
  | nil => intro _ p hp; exact absurd hp (List.not_mem_nil p)
  | cons e rest ih =>
    intro acc p hp hlt
    rw [List.foldl_cons]
    rcases List.mem_cons.mp hp with rfl | hmem
    · obtain ⟨b, hb, hpb⟩ := readScanStep_lt r acc p hlt
      obtain ⟨q, hq, hbq⟩ := readScan_foldl_ge_acc r rest _ b hb
      exact ⟨q, hq, Nat.le_trans hpb hbq⟩
    · exact ih _ p hmem hlt

theorem readScan_foldl_of_none (r : TxIdx) :
    ∀ (l : List (TxIdx × MemoryEntry)) (acc : Option (TxIdx × MemoryEntry)),
      (∀ p ∈ l, ¬ p.1 < r) → l.foldl (readScanStep r) acc = acc := by
  intro l
  induction l with
  | nil => intro acc _; rfl
  | cons e rest ih =>
    intro acc h
    rw [List.foldl_cons]
    have he : ¬ e.1 < r := h e (List.mem_cons_self _ _)
    have : readScanStep r acc e = acc := by unfold readScanStep; simp [he]
    rw [this]
    exact ih acc fun p hp => h p (List.mem_cons_of_mem _ hp)

/-- With distinct keys, a key determines its entry. -/
theorem eq_of_keys_nodup :
    ∀ (l : List (TxIdx × MemoryEntry)), (l.map Prod.fst).Nodup →
      ∀ (i : TxIdx) (a b : MemoryEntry), (i, a) ∈ l → (i, b) ∈ l → a = b := by
  intro l
  induction l with
  | nil => intro _ i a b ha; exact absurd ha (List.not_mem_nil _)
  | cons e rest ih =>
    intro hnd i a b ha hb
    rw [List.map_cons, List.nodup_cons] at hnd
    rcases List.mem_cons.mp ha with ha' | ha' <;>
      rcases List.mem_cons.mp hb with hb' | hb'
    · rw [← ha'] at hb'
      exact congrArg Prod.snd hb'.symm
    · exfalso
      apply hnd.1
      have : i = e.1 := by rw [← ha']
      rw [← this]
      exact List.mem_map_of_mem Prod.fst hb'
    · exfalso
      apply hnd.1
      have : i = e.1 := by rw [← hb']
      rw [← this]
      exact List.mem_map_of_mem Prod.fst ha'
    · exact ih hnd.2 i a b ha' hb'

/-- Claim C2: `MvMemory::read` returns the entry of the highest transaction
index strictly below the reader: `Blocked` on that index if the entry is an
`Estimate`, `Ok` with its version and value if it is `Data`, and `NotFound`
when no entry strictly below the reader exists. -/
theorem mv_memory_read_spec (m : MvMemory) (location : Loc) (r : TxIdx)
    (hnd : ((m.data location).map Prod.fst).Nodup) :
    (∀ (i : TxIdx) (e : MemoryEntry),
      (i, e) ∈ m.data location → i < r →
      (∀ p ∈ m.data location, p.1 < r → p.1 ≤ i) →
      m.read location r =
        (match e with
         | .Estimate => .ReadError i
         | .Data inc v => .Ok ⟨i, inc⟩ v)) ∧
    ((∀ p ∈ m.data location, ¬ p.1 < r) → m.read location r = .NotFound) := by
  constructor
  · intro i e hmem hlt hmax
    obtain ⟨q, hq, hiq⟩ :=
      readScan_foldl_ge_mem r (m.data location) none (i, e) hmem hlt
    rcases readScan_foldl_origin r (m.data location) none with h | ⟨p, hp, hfold, hplt⟩
    · rw [h] at hq; exact absurd hq (by simp)
    · rw [hfold] at hq
      have hqp : q = p := by injection hq.symm
      subst hqp
      have hqi : q.1 = i := Nat.le_antisymm (hmax q hp hplt) hiq
      have hqe : q.2 = e := by
        apply eq_of_keys_nodup (m.data location) hnd i _ _ _ hmem
        rw [← hqi]; exact hp
      unfold MvMemory.read
      rw [readScan_eq_foldl, hfold]
      have : q = (i, q.2) := Prod.ext hqi rfl
      rw [this, hqe]
      cases e with
      | Data inc v => rfl
      | Estimate => rfl
  · intro hnone
    unfold MvMemory.read
    rw [readScan_eq_foldl, readScan_foldl_of_none r _ none hnone]

/-- Concrete MV memory used to instantiate the read theorem. -/
def mvC2 : MvMemory :=
  ⟨fun l => if l = 7 then
      [(0, .Data 0 (.Storage 5)), (2, .Data 1 (.Storage 9)), (4, .Estimate)]
    else [],
   fun _ => [], fun _ => []⟩

theorem mv_memory_read_spec_witness :
    ((mvC2.data 7).map Prod.fst).Nodup ∧
    mvC2.read 7 3 = .Ok ⟨2, 1⟩ (.Storage 9) := by
  refine ⟨by decide, ?_⟩
  exact (mv_memory_read_spec mvC2 7 3 (by decide)).1 2 (.Data 1 (.Storage 9))
    (by decide) (by decide) (by decide)

/-! ### Validation (`MvMemory::validate_read_set`) -/

/-- The per-entry check of `validate_read_set`, characterised: the recorded
origin fails exactly on the four mismatch cases. -/
theorem validate_entry_iff (m : MvMemory) (t : TxIdx) (lo : Loc × ReadOrigin) :
    (match m.read lo.1 t with
      | .ReadError _ => false
      | .NotFound => decide (lo.2 = ReadOrigin.Storage)
      | .Ok version _ =>
          match lo.2 with
          | .Storage => false
          | .MvMemory v => decide (v = version)) = false ↔
    ((lo.2 = ReadOrigin.Storage ∧ ∃ ver val, m.read lo.1 t = .Ok ver val) ∨
     (∃ v ver val, lo.2 = ReadOrigin.MvMemory v ∧
        m.read lo.1 t = .Ok ver val ∧ ver ≠ v) ∨
     (∃ v, lo.2 = ReadOrigin.MvMemory v ∧ m.read lo.1 t = .NotFound) ∨
     (∃ b, m.read lo.1 t = .ReadError b)) := by
  cases hr : m.read lo.1 t with
  | NotFound => cases ho : lo.2 <;> simp [ho]
  | ReadError b => simp
  | Ok ver val =>
    cases ho : lo.2 with
    | Storage => simp [ho]
    | MvMemory v =>
      simp only [ho, decide_eq_false_iff_not, ReadOrigin.MvMemory.injEq,
        ReadMemoryResult.Ok.injEq]
      constructor
      · intro h
        exact Or.inr (Or.inl ⟨v, ver, val, rfl, ⟨rfl, rfl⟩, fun h2 => h h2.symm⟩)
      · rintro (⟨h, _⟩ | ⟨v2, ver2, val2, hv2, ⟨hver2, _⟩, hne⟩ | ⟨v2, _, h⟩ | ⟨b, h⟩)
        · exact absurd h (by simp [ho])
        · intro h
          apply hne
          cases hv2
          rw [← hver2, h]
        · exact absurd h (by simp)
        · exact absurd h (by simp)

/-- Claim C3: `validate_read_set(t)` returns `false` exactly when some
recorded (location, origin) pair mismatches on re-read at `t`: origin
`Storage` against a current `Ok`, origin `Mv(v)` against `Ok` of a different
version, origin `Mv(_)` against `NotFound`, or a current `Blocked` read.
Otherwise it returns `true`. -/
theorem mv_memory_validate_read_set_spec (m : MvMemory) (t : TxIdx) :
    m.validate_read_set t = false ↔
      ∃ lo ∈ m.last_read_set t,
        ((lo.2 = ReadOrigin.Storage ∧ ∃ ver val, m.read lo.1 t = .Ok ver val) ∨
         (∃ v ver val, lo.2 = ReadOrigin.MvMemory v ∧
            m.read lo.1 t = .Ok ver val ∧ ver ≠ v) ∨
         (∃ v, lo.2 = ReadOrigin.MvMemory v ∧ m.read lo.1 t = .NotFound) ∨
         (∃ b, m.read lo.1 t = .ReadError b)) := by
  unfold MvMemory.validate_read_set
  rw [List.all_eq_false]
  constructor
  · rintro ⟨lo, hmem, hfalse⟩
    refine ⟨lo, hmem, ?_⟩
    rw [← validate_entry_iff m t lo]
    exact Bool.eq_false_iff.mpr hfalse
  · rintro ⟨lo, hmem, hcase⟩
    refine ⟨lo, hmem, ?_⟩
    rw [Bool.not_eq_true]
    exact (validate_entry_iff m t lo).mpr hcase

/-! ### Recording (`MvMemory::record`) -/

/-- The step of the deletion pass of `record`, named for the proofs. -/
def recordRemoveStep (t : TxIdx) (new_locations : List Loc)
    (d : Loc → List (TxIdx × MemoryEntry)) (prev_location : Loc) :
    Loc → List (TxIdx × MemoryEntry) :=
  if new_locations.contains prev_location then d
  else updateFun d prev_location (mapRemoveEntry (d prev_location) t)

theorem recordRemove_preserve (t : TxIdx) (new_locations : List Loc) :
    ∀ (prev : List Loc) (d : Loc → List (TxIdx × MemoryEntry)) (l : Loc),
      (∀ p ∈ d l, p.1 ≠ t) →
      ∀ p ∈ (prev.foldl (recordRemoveStep t new_locations) d) l, p.1 ≠ t := by
  intro prev
  induction prev with
  | nil => intro d l h; exact h
  | cons pl rest ih =>
    intro d l h
    rw [List.foldl_cons]
    apply ih
    intro p hp
    unfold recordRemoveStep at hp
    by_cases hc : new_locations.contains pl
    · rw [if_pos hc] at hp; exact h p hp
    · rw [if_neg hc] at hp
      unfold updateFun at hp
      by_cases hl : l = pl
      · rw [if_pos hl] at hp
        unfold mapRemoveEntry at hp
        have := List.of_mem_filter hp
        simpa using this
      · rw [if_neg hl] at hp; exact h p hp

theorem recordRemove_establish (t : TxIdx) (new_locations : List Loc) :
    ∀ (prev : List Loc) (d : Loc → List (TxIdx × MemoryEntry)) (l : Loc),
      l ∈ prev → ¬ new_locations.contains l →
      ∀ p ∈ (prev.foldl (recordRemoveStep t new_locations) d) l, p.1 ≠ t := by
  intro prev
  induction prev with
  | nil => intro d l hl; exact absurd hl (List.not_mem_nil _)
  | cons pl rest ih =>
    intro d l hl hc
    rw [List.foldl_cons]
    by_cases heq : l = pl
    · subst heq
      apply recordRemove_preserve
      intro p hp
      unfold recordRemoveStep at hp
      rw [if_neg hc] at hp
      unfold updateFun at hp
      rw [if_pos rfl] at hp
      unfold mapRemoveEntry at hp
      have := List.of_mem_filter hp
      simpa using this
    · rcases List.mem_cons.mp hl with h | h
      · exact absurd h heq
      · exact ih _ l h hc

/-- Claim C4: `MvMemory::record` deletes the per-(location, tx) entry of
every location the previous incarnation wrote that is absent from the new
write set, and returns `true` iff some location of the new write set was
not written by the previous incarnation. -/
theorem mv_memory_record_spec (m : MvMemory) (tv : TxVersion)
    (read_set : List (Loc × ReadOrigin))
    (write_set : List (Loc × MemoryValue)) :
    (∀ l, l ∈ m.last_written_locations tv.tx_idx →
        l ∉ write_set.map Prod.fst →
        ∀ p ∈ (m.record tv read_set write_set).1.data l, p.1 ≠ tv.tx_idx) ∧
    ((m.record tv read_set write_set).2 = true ↔
      ∃ l ∈ write_set.map Prod.fst, l ∉ m.last_written_locations tv.tx_idx) := by
  constructor
  · intro l hprev hnew p hp
    have hc : ¬ (write_set.map Prod.fst).contains l := by
      simpa [List.elem_iff] using hnew
    exact recordRemove_establish tv.tx_idx (write_set.map Prod.fst)
      (m.last_written_locations tv.tx_idx) _ l hprev hc p hp
  · simp only [MvMemory.record, List.any_eq_true, Bool.not_eq_eq_eq_not,
      Bool.not_true, List.elem_iff]
    constructor
    · rintro ⟨l, hl, hnot⟩
      exact ⟨l, hl, by simpa using hnot⟩
    · rintro ⟨l, hl, hnot⟩
      exact ⟨l, hl, by simpa using hnot⟩

/-- Concrete MV memory used to instantiate the record theorem:
transaction 1 previously wrote locations 3 and 5; the new write set touches
5 and 8. -/
def mvC4 : MvMemory :=
  ⟨fun l => if l = 3 then [(1, .Estimate)]
    else if l = 5 then [(1, .Data 0 (.Storage 2))] else [],
   fun t => if t = 1 then [3, 5] else [],
   fun _ => []⟩

theorem mv_memory_record_spec_witness :
    (3 ∈ mvC4.last_written_locations 1 ∧
      3 ∉ ([(5, MemoryValue.Storage 4), (8, MemoryValue.Storage 6)].map Prod.fst) ∧
      ∀ p ∈ (mvC4.record ⟨1, 1⟩ []
          [(5, MemoryValue.Storage 4), (8, MemoryValue.Storage 6)]).1.data 3,
        p.1 ≠ 1) ∧
    (mvC4.record ⟨1, 1⟩ []
        [(5, MemoryValue.Storage 4), (8, MemoryValue.Storage 6)]).2 = true := by
  have h := mv_memory_record_spec mvC4 ⟨1, 1⟩ []
    [(5, MemoryValue.Storage 4), (8, MemoryValue.Storage 6)]
  refine ⟨⟨by decide, by decide, h.1 3 (by decide) (by decide)⟩, ?_⟩
  exact h.2.mpr ⟨8, by decide, by decide⟩

/-! ### VM adapter (`vm.rs`)

`VmDb` intercepts reads of one transaction execution.  The shared context
`VmCtx` bundles the storage oracle, the location hasher and a snapshot of
the multi-version entry maps; each per-location map is iterated in strictly
descending key order (the `BTreeMap` range scan). -/

/-- `ReadError` (`lib.rs`), with string payloads dropped. -/
inductive ReadError where
  | StorageError
  | NotFound
  | BlockingIndex (i : TxIdx)
  | InvalidMemoryLocationType
  deriving DecidableEq, Repr

structure VmCtx where
  coinbase : Nat
  beneficiary_location_hash : Loc
  hashBasic : Nat → Loc
  hashStorage : Nat → Nat → Loc
  is_contract : Nat → Bool
  storage_basic : Nat → Except Unit (Option AccountInfo)
  mv : Loc → List (TxIdx × MemoryEntry)

/-- `Vm::get_address_hash`. -/
def VmCtx.get_address_hash (ctx : VmCtx) (address : Nat) : Loc :=
  if address = ctx.coinbase then ctx.beneficiary_location_hash
  else ctx.hashBasic address

structure VmDb where
  tx_idx : TxIdx
  fromAddr : Nat
  from_hash : Loc
  toAddr : Option Nat
  to_hash : Option Loc
  is_maybe_lazy : Bool
  read_locations : Loc → List ReadOrigin
  read_accounts : Loc → Option AccountInfo
  only_read_from_and_to : Bool

/-- `VmDb::get_address_hash`. -/
def VmDb.get_address_hash (db : VmDb) (ctx : VmCtx) (address : Nat) : Loc :=
  if address = db.fromAddr then db.from_hash
  else if db.toAddr = some address then db.to_hash.getD 0
  else ctx.get_address_hash address

/-- The multi-version evaluation loop of `VmDb::basic`: walk the entries
below the reader in descending index order, accumulating lazy balance
additions, recording a read origin per traversed entry, and enforcing
consecutive indexes when the location is the beneficiary's. -/
def basicMvLoop (need_consecutive_idxs : Bool) (tx_idx : TxIdx) :
    List (TxIdx × MemoryEntry) → Nat → Nat → List ReadOrigin →
    Except ReadError (Option AccountInfo × Nat) × List ReadOrigin
  | [], current_idx, balance_addition, read_origins =>
      if need_consecutive_idxs ∧ current_idx > 0 then
        (.error (.BlockingIndex (tx_idx - 1)), read_origins)
      else (.ok (none, balance_addition), read_origins)
  | (blocking_idx, .Estimate) :: _, _, _, read_origins =>
      if need_consecutive_idxs then
        (.error (.BlockingIndex (tx_idx - 1)), read_origins)
      else (.error (.BlockingIndex blocking_idx), read_origins)
  | (closest_idx, .Data tx_incarnation value) :: rest,
      current_idx, balance_addition, read_origins =>
      if need_consecutive_idxs ∧ closest_idx ≠ current_idx - 1 then
        (.error (.BlockingIndex (tx_idx - 1)), read_origins)
      else
        let read_origins :=
          read_origins ++ [ReadOrigin.MvMemory ⟨closest_idx, tx_incarnation⟩]
        match value with
        | .Basic info =>
            (.ok (some { info with
                balance := u256add info.balance balance_addition },
              balance_addition), read_origins)
        | .LazyBalanceAddition addition =>
            basicMvLoop need_consecutive_idxs tx_idx rest closest_idx
              (u256add balance_addition addition) read_origins
        | .Storage _ => (.error .InvalidMemoryLocationType, read_origins)

/-- The `range(..current_idx)` restriction of a per-location map. -/
def entriesBelow (entries : List (TxIdx × MemoryEntry)) (tx_idx : TxIdx) :
    List (TxIdx × MemoryEntry) :=
  entries.filter fun p => decide (p.1 < tx_idx)

/-- The body of `VmDb::basic` after the preload and lazy-recipient
shortcuts: multi-version evaluation at the location hash, then the storage
fallback, threading the read-set updates. -/
def VmDb.basicCore (db1 : VmDb) (ctx : VmCtx) (address : Nat) :
    Except ReadError (Option AccountInfo) × VmDb :=
  let location_hash := db1.get_address_hash ctx address
  let mvres :=
      if db1.tx_idx > 0 then
        basicMvLoop (location_hash == ctx.beneficiary_location_hash) db1.tx_idx
          (entriesBelow (ctx.mv location_hash) db1.tx_idx) db1.tx_idx 0 []
      else (.ok (none, 0), [])
  match mvres with
    | (.error e, read_origins) =>
        (.error e,
         { db1 with read_locations :=
             updateFun db1.read_locations location_hash read_origins })
    | (.ok (some info, _), read_origins) =>
        (.ok (some info),
         { db1 with
             read_locations :=
               updateFun db1.read_locations location_hash read_origins,
             read_accounts :=
               updateFun db1.read_accounts location_hash (some info) })
    | (.ok (none, balance_addition), read_origins) =>
        let read_origins := read_origins ++ [ReadOrigin.Storage]
        match ctx.storage_basic address with
        | .error _ =>
            (.error .StorageError,
             { db1 with read_locations :=
                 updateFun db1.read_locations location_hash read_origins })
        | .ok (some account) =>
            let info := { account with
              balance := u256add account.balance balance_addition }
            (.ok (some info),
             { db1 with
                 read_locations :=
                   updateFun db1.read_locations location_hash read_origins,
                 read_accounts :=
                   updateFun db1.read_accounts location_hash (some info) })
        | .ok none =>
            if balance_addition > 0 then
              let info := AccountInfo.from_balance balance_addition
              (.ok (some info),
               { db1 with
                   read_locations :=
                     updateFun db1.read_locations location_hash read_origins,
                   read_accounts :=
                     updateFun db1.read_accounts location_hash (some info) })
            else
              (.ok none,
               { db1 with read_locations :=
                   updateFun db1.read_locations location_hash read_origins })

/-- `VmDb::basic`: the read-intercepting account lookup.  Returns the
account (or a read error) together with the updated `VmDb` state (read
origins, account cache, the `only_read_from_and_to` flag). -/
def VmDb.basic (db : VmDb) (ctx : VmCtx) (address : Nat) (is_preload : Bool) :
    Except ReadError (Option AccountInfo) × VmDb :=
  if is_preload then (.ok none, db)
  else if db.is_maybe_lazy ∧ db.toAddr = some address ∧
      ctx.is_contract address = false then
    (.ok (some { balance := 0, nonce := 1, codeHash := keccakEmpty }), db)
  else
    let db1 := if address ≠ db.fromAddr ∧ db.toAddr ≠ some address then
        { db with only_read_from_and_to := false } else db
    db1.basicCore ctx address

/-! ### The beneficiary "consecutive indexes" rule (claim C5) -/

theorem basicMvLoop_blocking (k : TxIdx) :
    ∀ (entries : List (TxIdx × MemoryEntry)) (cur add : Nat)
      (og : List ReadOrigin) (j : TxIdx),
      (basicMvLoop true k entries cur add og).1 =
        .error (.BlockingIndex j) → j = k - 1 := by
  intro entries
  induction entries with
  | nil =>
    intro cur add og j h
    simp only [basicMvLoop] at h
    split at h
    · injection h with h; injection h with h; exact h.symm
    · exact absurd h (by simp)
  | cons e rest ih =>
    intro cur add og j h
    obtain ⟨i, entry⟩ := e
    cases entry with
    | Estimate =>
      simp only [basicMvLoop, if_pos rfl] at h
      injection h with h; injection h with h; exact h.symm
    | Data inc v =>
      simp only [basicMvLoop] at h
      split at h
      · injection h with h; injection h with h; exact h.symm
      · cases v with
        | Basic info => exact absurd h (by simp)
        | LazyBalanceAddition addition => exact ih i _ _ j h
        | Storage s =>
          exact absurd h (by simp)

theorem basicMvLoop_ok_head (k : TxIdx) (entries : List (TxIdx × MemoryEntry))
    (cur add : Nat) (og : List ReadOrigin)
    (x : Option AccountInfo × Nat) (hcur : cur > 0)
    (h : (basicMvLoop true k entries cur add og).1 = .ok x) :
    ∃ inc v rest, entries = (cur - 1, MemoryEntry.Data inc v) :: rest := by
  cases entries with
  | nil =>
    simp only [basicMvLoop, true_and] at h
    rw [if_pos hcur] at h
    exact absurd h (by simp)
  | cons e rest =>
    obtain ⟨i, entry⟩ := e
    cases entry with
    | Estimate =>
      simp only [basicMvLoop, if_pos rfl] at h
      exact absurd h (by simp)
    | Data inc v =>
      by_cases hi : i = cur - 1
      · exact ⟨inc, v, rest, by rw [hi]⟩
      · simp only [basicMvLoop, true_and, if_pos hi] at h
        exact absurd h (by simp)

theorem basicMvLoop_nonconsecutive (k : TxIdx)
    (entries : List (TxIdx × MemoryEntry)) (cur add : Nat)
    (og : List ReadOrigin) (hcur : cur > 0)
    (hhead : ∀ p ∈ entries.head?, p.1 ≠ cur - 1) :
    (basicMvLoop true k entries cur add og).1 =
      .error (.BlockingIndex (k - 1)) := by
  cases entries with
  | nil =>
    simp only [basicMvLoop, true_and]
    rw [if_pos hcur]
  | cons e rest =>
    obtain ⟨i, entry⟩ := e
    have hi : i ≠ cur - 1 := hhead (i, entry) (by simp)
    cases entry with
    | Estimate => simp [basicMvLoop]
    | Data inc v => simp only [basicMvLoop, true_and, if_pos hi]

@[simp] theorem get_address_hash_only_flag (db : VmDb) (ctx : VmCtx)
    (a : Nat) (b : Bool) :
    VmDb.get_address_hash { db with only_read_from_and_to := b } ctx a =
      db.get_address_hash ctx a := rfl

/-- The result component of `VmDb.basicCore`: multi-version loop, then
storage fallback. -/
theorem vmdb_basicCore_result (db1 : VmDb) (ctx : VmCtx) (address : Nat)
    (hk : db1.tx_idx > 0) :
    (db1.basicCore ctx address).1 =
      (match (basicMvLoop
          (db1.get_address_hash ctx address == ctx.beneficiary_location_hash)
          db1.tx_idx
          (entriesBelow (ctx.mv (db1.get_address_hash ctx address)) db1.tx_idx)
          db1.tx_idx 0 []).1 with
        | .error e => .error e
        | .ok (some info, _) => .ok (some info)
        | .ok (none, balance_addition) =>
            match ctx.storage_basic address with
            | .error _ => .error .StorageError
            | .ok (some account) =>
                .ok (some { account with
                  balance := u256add account.balance balance_addition })
            | .ok none =>
                if balance_addition > 0 then
                  .ok (some (AccountInfo.from_balance balance_addition))
                else .ok none) := by
  unfold VmDb.basicCore
  dsimp only
  rw [if_pos hk]
  rcases hmv : basicMvLoop
      (db1.get_address_hash ctx address == ctx.beneficiary_location_hash)
      db1.tx_idx
      (entriesBelow (ctx.mv (db1.get_address_hash ctx address)) db1.tx_idx)
      db1.tx_idx 0 [] with ⟨r, og⟩
  cases r with
  | error e => rfl
  | ok p =>
    obtain ⟨fa, ba⟩ := p
    cases fa with
    | some info => rfl
    | none =>
      dsimp only
      cases hsb : ctx.storage_basic address with
      | error u => rfl
      | ok oa =>
        cases oa with
        | some account => rfl
        | none =>
          by_cases hba : ba > 0
          · simp only [if_pos hba]
          · simp only [if_neg hba]

/-- Outside the preload and lazy-recipient shortcuts, `basic` delegates to
`basicCore` on a state that differs at most in `only_read_from_and_to`. -/
theorem vmdb_basic_eq_core (db : VmDb) (ctx : VmCtx) (address : Nat)
    (hpre : ¬ (db.is_maybe_lazy ∧ db.toAddr = some address ∧
      ctx.is_contract address = false)) :
    db.basic ctx address false =
      VmDb.basicCore
        (if address ≠ db.fromAddr ∧ db.toAddr ≠ some address then
          { db with only_read_from_and_to := false } else db) ctx address := by
  unfold VmDb.basic
  rw [if_neg (by simp), if_neg hpre]

/-- Claim C5: during execution of transaction `k > 0`, a `basic` read that
resolves to the beneficiary's location only succeeds when the chain of
multi-version entries below `k` starts with a `Data` entry at index `k - 1`
(and is then traversed consecutively); if the entries below `k` are empty or
their highest index differs from `k - 1`, the read returns
`Blocked(k - 1)`, and every blocking error this read produces blocks on
`k - 1`. -/
theorem vm_beneficiary_read_consecutive_spec (db : VmDb) (ctx : VmCtx)
    (address : Nat)
    (hpre : ¬ (db.is_maybe_lazy ∧ db.toAddr = some address ∧
      ctx.is_contract address = false))
    (hk : db.tx_idx > 0)
    (hben : db.get_address_hash ctx address = ctx.beneficiary_location_hash) :
    (entriesBelow (ctx.mv ctx.beneficiary_location_hash) db.tx_idx = [] →
      (db.basic ctx address false).1 =
        .error (.BlockingIndex (db.tx_idx - 1))) ∧
    (∀ i e rest,
      entriesBelow (ctx.mv ctx.beneficiary_location_hash) db.tx_idx =
        (i, e) :: rest → i ≠ db.tx_idx - 1 →
      (db.basic ctx address false).1 =
        .error (.BlockingIndex (db.tx_idx - 1))) ∧
    (∀ x, (db.basic ctx address false).1 = .ok x →
      ∃ inc v rest,
        entriesBelow (ctx.mv ctx.beneficiary_location_hash) db.tx_idx =
          (db.tx_idx - 1, MemoryEntry.Data inc v) :: rest) ∧
    (∀ j, (db.basic ctx address false).1 = .error (.BlockingIndex j) →
      j = db.tx_idx - 1) := by
  have hcore := vmdb_basic_eq_core db ctx address hpre
  -- Reduce `basic` to the match over the consecutive-mode loop.
  have hres : (db.basic ctx address false).1 =
      (match (basicMvLoop true db.tx_idx
          (entriesBelow (ctx.mv ctx.beneficiary_location_hash) db.tx_idx)
          db.tx_idx 0 []).1 with
        | .error e => .error e
        | .ok (some info, _) => .ok (some info)
        | .ok (none, balance_addition) =>
            match ctx.storage_basic address with
            | .error _ => .error .StorageError
            | .ok (some account) =>
                .ok (some { account with
                  balance := u256add account.balance balance_addition })
            | .ok none =>
                if balance_addition > 0 then
                  .ok (some (AccountInfo.from_balance balance_addition))
                else .ok none) := by
    rw [hcore]
    by_cases hcond : address ≠ db.fromAddr ∧ db.toAddr ≠ some address
    · rw [if_pos hcond]
      rw [vmdb_basicCore_result
        { db with only_read_from_and_to := false } ctx address hk]
      simp only [get_address_hash_only_flag, hben, beq_self_eq_true]
    · rw [if_neg hcond]
      rw [vmdb_basicCore_result db ctx address hk]
      simp only [hben, beq_self_eq_true]
  refine ⟨?_, ?_, ?_, ?_⟩
  · intro hnil
    rw [hres, hnil]
    rw [basicMvLoop_nonconsecutive db.tx_idx [] db.tx_idx 0 [] hk (by simp)]
  · intro i e rest hcons hi
    rw [hres, hcons]
    rw [basicMvLoop_nonconsecutive db.tx_idx _ db.tx_idx 0 [] hk (by simp [hi])]
  · intro x hok
    rw [hres] at hok
    rcases hL : (basicMvLoop true db.tx_idx
        (entriesBelow (ctx.mv ctx.beneficiary_location_hash) db.tx_idx)
        db.tx_idx 0 []).1 with e | p
    · rw [hL] at hok; exact absurd hok (by simp)
    · exact basicMvLoop_ok_head db.tx_idx _ db.tx_idx 0 [] p hk hL
  · intro j hj
    rw [hres] at hj
    rcases hL : (basicMvLoop true db.tx_idx
        (entriesBelow (ctx.mv ctx.beneficiary_location_hash) db.tx_idx)
        db.tx_idx 0 []).1 with e | p
    · rw [hL] at hj
      have : e = ReadError.BlockingIndex j := by
        simpa using hj
      exact basicMvLoop_blocking db.tx_idx _ db.tx_idx 0 [] j (this ▸ hL)
    · rw [hL] at hj
      obtain ⟨fa, ba⟩ := p
      cases fa with
      | some info => exact absurd hj (by simp)
      | none =>
        cases hsb : ctx.storage_basic address with
        | error u => rw [hsb] at hj; exact absurd hj (by simp)
        | ok oa =>
          cases oa with
          | some account => rw [hsb] at hj; exact absurd hj (by simp)
          | none =>
            rw [hsb] at hj
            dsimp only at hj
            split at hj <;> exact absurd hj (by simp)

/-- Concrete VM database state: transaction 2, sender 100, recipient 101. -/
def dbC5 : VmDb :=
  ⟨2, 100, 100, some 101, some 101, false, fun _ => [], fun _ => none, true⟩

/-- Concrete VM context: beneficiary 200 whose only multi-version entry is
at transaction 0, so a read at transaction 2 must block on index 1. -/
def ctxC5 : VmCtx :=
  ⟨200, 200, id, fun a s => a + s, fun _ => false, fun _ => .ok none,
   fun l => if l = 200 then [(0, .Data 0 (.Basic ⟨5, 0, 0⟩))] else []⟩

theorem vm_beneficiary_read_consecutive_spec_witness :
    dbC5.tx_idx > 0 ∧
    dbC5.get_address_hash ctxC5 200 = ctxC5.beneficiary_location_hash ∧
    entriesBelow (ctxC5.mv ctxC5.beneficiary_location_hash) dbC5.tx_idx =
      [(0, .Data 0 (.Basic ⟨5, 0, 0⟩))] ∧
    (dbC5.basic ctxC5 200 false).1 = .error (.BlockingIndex 1) := by
  refine ⟨by decide, by decide, by decide, ?_⟩
  exact (vm_beneficiary_read_consecutive_spec dbC5 ctxC5 200 (by decide)
    (by decide) (by decide)).2.1 0 (.Data 0 (.Basic ⟨5, 0, 0⟩)) []
    (by decide) (by decide)

/-! ### Write-set classification (`Vm::execute`, claim C10) -/

/-- A `revm` post-state account, as consumed by the write-set
classification loop of `Vm::execute`. -/
structure Account where
  info : AccountInfo
  selfdestructed : Bool
  touched : Bool
  changed_storage_slots : List (Nat × Nat)
  deriving DecidableEq, Repr

/-- The per-account body of the write-set construction loop of
`Vm::execute`: self-destructed accounts become empty `Basic` writes,
changed touched accounts become `LazyBalanceAddition(tx.value)` for an
eligible lazy recipient and full `Basic` snapshots otherwise, and each
changed storage slot becomes a `Storage` write. -/
def classify_account_write (ctx : VmCtx)
    (read_accounts : Loc → Option AccountInfo) (is_maybe_lazy : Bool)
    (toAddr : Option Nat) (tx_value : Nat) (address : Nat)
    (account : Account) : List (Loc × MemoryValue) :=
  if account.selfdestructed then
    [(ctx.get_address_hash address, .Basic AccountInfo.default)]
  else
    (if account.touched ∧
        read_accounts (ctx.get_address_hash address) ≠ some account.info then
      (if is_maybe_lazy ∧ toAddr = some address ∧
          account.info.is_empty_code_hash then
        [(ctx.get_address_hash address, .LazyBalanceAddition tx_value)]
      else
        [(ctx.get_address_hash address, .Basic account.info)])
    else []) ++
    account.changed_storage_slots.map
      (fun sv => (ctx.hashStorage address sv.1, MemoryValue.Storage sv.2))

/-- Claim C10: for a maybe-lazy transaction (empty calldata, recipient
distinct from sender) whose recipient is not a contract in storage,
(1) `VmDb::basic` on the recipient returns the stub account
(nonce 1, zero balance, empty code hash) and leaves the read set untouched,
for every storage oracle; and (2) when execution changed that recipient
account (touched, not self-destructed, different from the read cache, still
with empty code), its write is classified as
`LazyBalanceAddition(tx.value)` instead of a full `Basic` snapshot. -/
theorem vm_lazy_recipient_spec :
    (∀ (db : VmDb) (ctx : VmCtx) (address : Nat),
      db.is_maybe_lazy = true → db.toAddr = some address →
      ctx.is_contract address = false →
      db.basic ctx address false =
        (.ok (some { balance := 0, nonce := 1, codeHash := keccakEmpty }),
         db)) ∧
    (∀ (ctx : VmCtx) (read_accounts : Loc → Option AccountInfo)
      (tx_value : Nat) (address : Nat) (account : Account),
      account.selfdestructed = false → account.touched = true →
      read_accounts (ctx.get_address_hash address) ≠ some account.info →
      account.info.is_empty_code_hash = true →
      account.changed_storage_slots = [] →
      classify_account_write ctx read_accounts true (some address) tx_value
        address account =
        [(ctx.get_address_hash address, .LazyBalanceAddition tx_value)]) := by
  constructor
  · intro db ctx address hlazy hto hcontract
    unfold VmDb.basic
    rw [if_neg (by simp), if_pos ⟨hlazy, hto, hcontract⟩]
  · intro ctx read_accounts tx_value address account hsd ht hne hech hslots
    unfold classify_account_write
    rw [if_neg (by simp [hsd]), if_pos ⟨ht, hne⟩,
      if_pos ⟨rfl, rfl, hech⟩, hslots]
    simp

/-- Concrete VM database: sender 100, lazy recipient 101. -/
def dbC10 : VmDb :=
  ⟨1, 100, 100, some 101, some 101, true, fun _ => [], fun _ => none, true⟩

/-- Concrete VM context where address 101 holds no contract. -/
def ctxC10 : VmCtx :=
  ⟨200, 200, id, fun a s => a + s, fun _ => false,
   fun _ => .ok (some ⟨77, 3, 0⟩), fun _ => []⟩

/-- Concrete changed recipient account after a pure value transfer. -/
def accountC10 : Account := ⟨⟨9, 1, 0⟩, false, true, []⟩

theorem vm_lazy_recipient_spec_witness :
    (dbC10.is_maybe_lazy = true ∧ dbC10.toAddr = some 101 ∧
      ctxC10.is_contract 101 = false ∧
      dbC10.basic ctxC10 101 false =
        (.ok (some { balance := 0, nonce := 1, codeHash := keccakEmpty }),
         dbC10)) ∧
    (accountC10.selfdestructed = false ∧ accountC10.touched = true ∧
      classify_account_write ctxC10 (fun _ => none) true (some 101) 9 101
        accountC10 =
        [(ctxC10.get_address_hash 101, .LazyBalanceAddition 9)]) := by
  constructor
  · exact ⟨rfl, rfl, rfl,
      vm_lazy_recipient_spec.1 dbC10 ctxC10 101 rfl rfl rfl⟩
  · exact ⟨rfl, rfl,
      vm_lazy_recipient_spec.2 ctxC10 (fun _ => none) 9 101 accountC10 rfl rfl
        (by simp) rfl rfl⟩

/-! ### The next-validation-index hint (`Vm::execute`, claim C6) -/

/-- The `next_validation_idx` computation at the end of a successful
`Vm::execute`. -/
def next_validation_idx (tx_idx : TxIdx) (only_read_from_and_to : Bool)
    (is_create_tx : Bool) (from_hash : Loc) (to_hash : Option Loc)
    (beneficiary_location_hash : Loc)
    (write_set : List (Loc × MemoryValue)) : Option TxIdx :=
  if tx_idx = 0 then none
  else if ¬ only_read_from_and_to then some tx_idx
  else if is_create_tx ||
      write_set.any (fun p =>
        p.1 != from_hash && p.1 != to_hash.getD 0 &&
        p.1 != beneficiary_location_hash) then
    some (tx_idx + 1)
  else none

/-- Claim C6: after a successful execution of transaction `k`, the
next-validation index is `none` for `k = 0`; `k` when something outside the
sender/recipient accounts was read; `k + 1` when only those were read but
the transaction deploys a contract or writes outside
{sender, recipient, beneficiary}; and `none` otherwise. -/
theorem vm_next_validation_idx_spec (k : TxIdx)
    (only_rft is_create_tx : Bool) (from_hash th bh : Loc)
    (write_set : List (Loc × MemoryValue)) :
    (k = 0 →
      next_validation_idx k only_rft is_create_tx from_hash (some th) bh
        write_set = none) ∧
    (k ≠ 0 → only_rft = false →
      next_validation_idx k only_rft is_create_tx from_hash (some th) bh
        write_set = some k) ∧
    (k ≠ 0 → only_rft = true → is_create_tx = true →
      next_validation_idx k only_rft is_create_tx from_hash (some th) bh
        write_set = some (k + 1)) ∧
    (k ≠ 0 → only_rft = true → is_create_tx = false →
      (∃ p ∈ write_set, p.1 ≠ from_hash ∧ p.1 ≠ th ∧ p.1 ≠ bh) →
      next_validation_idx k only_rft is_create_tx from_hash (some th) bh
        write_set = some (k + 1)) ∧
    (k ≠ 0 → only_rft = true → is_create_tx = false →
      (∀ p ∈ write_set, p.1 = from_hash ∨ p.1 = th ∨ p.1 = bh) →
      next_validation_idx k only_rft is_create_tx from_hash (some th) bh
        write_set = none) := by
  refine ⟨?_, ?_, ?_, ?_, ?_⟩
  · intro hk; rw [next_validation_idx, if_pos hk]
  · intro hk ho
    rw [next_validation_idx, if_neg hk, if_pos (by simp [ho])]
  · intro hk ho hc
    rw [next_validation_idx, if_neg hk, if_neg (by simp [ho]),
      if_pos (by simp [hc])]
  · intro hk ho hc hex
    rw [next_validation_idx, if_neg hk, if_neg (by simp [ho]), if_pos]
    rw [hc, Bool.false_or, List.any_eq_true]
    obtain ⟨p, hp, h1, h2, h3⟩ := hex
    exact ⟨p, hp, by simp [h1, h2, h3]⟩
  · intro hk ho hc hall
    rw [next_validation_idx, if_neg hk, if_neg (by simp [ho]), if_neg]
    rw [hc, Bool.false_or, List.any_eq_true]
    rintro ⟨p, hp, hcond⟩
    rcases hall p hp with h | h | h <;> simp [h] at hcond

theorem vm_next_validation_idx_spec_witness :
    ((2 : TxIdx) ≠ 0 ∧
      next_validation_idx 2 true false 10 (some 11) 12
        [(10, .LazyBalanceAddition 1), (13, .Storage 7)] = some 3) := by
  refine ⟨by decide, ?_⟩
  exact (vm_next_validation_idx_spec 2 true false 10 11 12
    [(10, .LazyBalanceAddition 1), (13, .Storage 7)]).2.2.2.1
    (by decide) rfl rfl ⟨(13, .Storage 7), by decide, by decide, by decide,
      by decide⟩

/-! ### The bounded retry policy (`Vm::execute`, claim C7) -/

/-- The EVM outcome cases `Vm::execute` dispatches on. -/
inductive EvmOutcome where
  | success
  | revert
  | lackOfFunds
  | dbBlocking (i : TxIdx)
  | otherError
  deriving DecidableEq, Repr

/-- The shape of `VmExecutionResult` relevant to the retry policy: a
blocking read error, a surfaced execution error, or a surfaced result. -/
inductive VmExecutionResult where
  | ReadError (blocking_tx_idx : TxIdx)
  | ExecutionError
  | Ok
  deriving DecidableEq, Repr

/-- `u8` counters wrap modulo `2 ^ 8`. -/
def U8MOD : Nat := 2 ^ 8

/-- The retry dispatch of `Vm::execute`: on a revert or a lack-of-funds
error of a transaction `tx_idx > 0`, `fetch_add` the per-transaction retry
counter (stored at slot `tx_idx - 1`) and report `ReadError(tx_idx - 1)`
when the previous counter value was below 1, surfacing the result or error
otherwise.  Returns the result together with the new counter value. -/
def Vm.execute_dispatch (outcome : EvmOutcome) (tx_idx : TxIdx)
    (retried : Nat) : VmExecutionResult × Nat :=
  match outcome with
  | .success => (.Ok, retried)
  | .revert =>
      if tx_idx > 0 then
        if retried < 1 then (.ReadError (tx_idx - 1), (retried + 1) % U8MOD)
        else (.Ok, (retried + 1) % U8MOD)
      else (.Ok, retried)
  | .dbBlocking i => (.ReadError i, retried)
  | .lackOfFunds =>
      if tx_idx > 0 then
        if retried < 1 then (.ReadError (tx_idx - 1), (retried + 1) % U8MOD)
        else (.ExecutionError, (retried + 1) % U8MOD)
      else (.ExecutionError, retried)
  | .otherError => (.ExecutionError, retried)

/-- Claim C7: for `t > 0`, a revert or lack-of-funds outcome with the
retry counter below the bound 1 yields `ReadError` blocking on `t - 1`
(with the counter bumped); once the counter has reached the bound the
revert result (resp. the error) is surfaced; and transaction 0 is never
retried. -/
theorem vm_execute_retry_spec (t : TxIdx) (retried : Nat) :
    (t > 0 → retried < 1 →
      Vm.execute_dispatch .revert t retried =
        (.ReadError (t - 1), (retried + 1) % U8MOD) ∧
      Vm.execute_dispatch .lackOfFunds t retried =
        (.ReadError (t - 1), (retried + 1) % U8MOD)) ∧
    (t > 0 → ¬ retried < 1 →
      Vm.execute_dispatch .revert t retried = (.Ok, (retried + 1) % U8MOD) ∧
      Vm.execute_dispatch .lackOfFunds t retried =
        (.ExecutionError, (retried + 1) % U8MOD)) ∧
    (Vm.execute_dispatch .revert 0 retried = (.Ok, retried) ∧
      Vm.execute_dispatch .lackOfFunds 0 retried =
        (.ExecutionError, retried)) := by
  refine ⟨?_, ?_, ?_⟩
  · intro ht hr
    constructor <;>
    · unfold Vm.execute_dispatch
      dsimp only
      rw [if_pos ht, if_pos hr]
  · intro ht hr
    constructor <;>
    · unfold Vm.execute_dispatch
      dsimp only
      rw [if_pos ht, if_neg hr]
  · constructor <;> rfl

theorem vm_execute_retry_spec_witness :
    ((3 : TxIdx) > 0 ∧ (0 : Nat) < 1) ∧
    Vm.execute_dispatch .revert 3 0 = (.ReadError 2, 1) ∧
    Vm.execute_dispatch .lackOfFunds 3 0 = (.ReadError 2, 1) :=
  ⟨⟨by decide, by decide⟩,
    (vm_execute_retry_spec 3 0).1 (by decide) (by decide)⟩

/-! ### Beneficiary rewards (`Vm::apply_rewards`, claim C8) -/

/-- The effective gas price as the claim states it: the gas price, capped
at priority fee plus base fee when a priority fee is present.  (Spec-side
characterisation; compare `gas_price_paid`.) -/
def effective_gas_price_spec (gas_price : Nat) (gas_priority_fee : Option Nat)
    (basefee : Nat) : Nat :=
  match gas_priority_fee with
  | some priority_fee => min gas_price (u256add priority_fee basefee)
  | none => gas_price

/-- The gas price credited to the beneficiary in
`Vm::apply_rewards` (Ethereum reward policy): the effective gas price,
minus the base fee (saturating) when the London spec is enabled. -/
def gas_price_paid (spec_london : Bool) (gas_price : Nat)
    (gas_priority_fee : Option Nat) (basefee : Nat) : Nat :=
  let gp := match gas_priority_fee with
    | some priority_fee => min gas_price (u256add priority_fee basefee)
    | none => gas_price
  if spec_london then gp - basefee else gp

/-- The reward-folding loop of `Vm::apply_rewards`: mutate the first
write-set entry at the recipient (adding to a `Basic` balance or a
`LazyBalanceAddition` delta; a `Storage` value there is unreachable,
modelled as `none`), pushing a fresh `LazyBalanceAddition` at the end when
the recipient is absent. -/
def applyRewardToWriteSet :
    List (Loc × MemoryValue) → Loc → Nat → Option (List (Loc × MemoryValue))
  | [], recipient, amount => some [(recipient, .LazyBalanceAddition amount)]
  | (l, v) :: rest, recipient, amount =>
    if l = recipient then
      match v with
      | .Basic info =>
          some ((l, .Basic { info with
            balance := u256add info.balance amount }) :: rest)
      | .LazyBalanceAddition addition =>
          some ((l, .LazyBalanceAddition (u256add addition amount)) :: rest)
      | .Storage _ => none
    else (applyRewardToWriteSet rest recipient amount).map
      (fun ws => (l, v) :: ws)

/-- `Vm::apply_rewards`: credit the beneficiary with
`gas_price_paid × gas_used`. -/
def Vm.apply_rewards (spec_london : Bool) (beneficiary_location_hash : Loc)
    (gas_price : Nat) (gas_priority_fee : Option Nat) (basefee gas_used : Nat)
    (write_set : List (Loc × MemoryValue)) :
    Option (List (Loc × MemoryValue)) :=
  applyRewardToWriteSet write_set beneficiary_location_hash
    (u256mul (gas_price_paid spec_london gas_price gas_priority_fee basefee)
      gas_used)

theorem applyRewardToWriteSet_absent (recipient : Loc) (amount : Nat) :
    ∀ (ws : List (Loc × MemoryValue)), (∀ p ∈ ws, p.1 ≠ recipient) →
      applyRewardToWriteSet ws recipient amount =
        some (ws ++ [(recipient, .LazyBalanceAddition amount)]) := by
  intro ws
  induction ws with
  | nil => intro _; rfl
  | cons e rest ih =>
    intro h
    obtain ⟨l, v⟩ := e
    have hl : l ≠ recipient := h (l, v) (by simp)
    rw [applyRewardToWriteSet.eq_def]
    dsimp only
    rw [if_neg hl, ih (fun p hp => h p (List.mem_cons_of_mem _ hp))]
    rfl

theorem applyRewardToWriteSet_basic (recipient : Loc) (amount : Nat)
    (info : AccountInfo) (ws2 : List (Loc × MemoryValue)) :
    ∀ (ws1 : List (Loc × MemoryValue)), (∀ p ∈ ws1, p.1 ≠ recipient) →
      applyRewardToWriteSet (ws1 ++ (recipient, .Basic info) :: ws2)
          recipient amount =
        some (ws1 ++ (recipient, .Basic { info with
          balance := u256add info.balance amount }) :: ws2) := by
  intro ws1
  induction ws1 with
  | nil => intro _; simp [applyRewardToWriteSet]
  | cons e rest ih =>
    intro h
    obtain ⟨l, v⟩ := e
    have hl : l ≠ recipient := h (l, v) (by simp)
    rw [List.cons_append, applyRewardToWriteSet.eq_def]
    dsimp only
    rw [if_neg hl, ih (fun p hp => h p (List.mem_cons_of_mem _ hp))]
    rfl

theorem applyRewardToWriteSet_lazy (recipient : Loc) (amount : Nat)
    (addition : Nat) (ws2 : List (Loc × MemoryValue)) :
    ∀ (ws1 : List (Loc × MemoryValue)), (∀ p ∈ ws1, p.1 ≠ recipient) →
      applyRewardToWriteSet
          (ws1 ++ (recipient, .LazyBalanceAddition addition) :: ws2)
          recipient amount =
        some (ws1 ++
          (recipient, .LazyBalanceAddition (u256add addition amount)) ::
          ws2) := by
  intro ws1
  induction ws1 with
  | nil => intro _; simp [applyRewardToWriteSet]
  | cons e rest ih =>
    intro h
    obtain ⟨l, v⟩ := e
    have hl : l ≠ recipient := h (l, v) (by simp)
    rw [List.cons_append, applyRewardToWriteSet.eq_def]
    dsimp only
    rw [if_neg hl, ih (fun p hp => h p (List.mem_cons_of_mem _ hp))]
    rfl

/-- Claim C8: `apply_rewards` credits the beneficiary with exactly
`gas_price_paid × gas_used`, where `gas_price_paid` is the effective gas
price minus the base fee under London and the full effective gas price
before London; the amount is folded into an existing beneficiary entry
(`Basic` balance or `LazyBalanceAddition` delta) and otherwise appended as
a fresh `LazyBalanceAddition` entry. -/
theorem vm_apply_rewards_spec (spec_london : Bool) (bh : Loc)
    (gas_price : Nat) (gas_priority_fee : Option Nat)
    (basefee gas_used : Nat) :
    (gas_price_paid true gas_price gas_priority_fee basefee =
      effective_gas_price_spec gas_price gas_priority_fee basefee - basefee) ∧
    (gas_price_paid false gas_price gas_priority_fee basefee =
      effective_gas_price_spec gas_price gas_priority_fee basefee) ∧
    (∀ ws, (∀ p ∈ ws, p.1 ≠ bh) →
      Vm.apply_rewards spec_london bh gas_price gas_priority_fee basefee
          gas_used ws =
        some (ws ++ [(bh, .LazyBalanceAddition
          (u256mul (gas_price_paid spec_london gas_price gas_priority_fee
            basefee) gas_used))])) ∧
    (∀ ws1 ws2 info, (∀ p ∈ ws1, p.1 ≠ bh) →
      Vm.apply_rewards spec_london bh gas_price gas_priority_fee basefee
          gas_used (ws1 ++ (bh, .Basic info) :: ws2) =
        some (ws1 ++ (bh, .Basic { info with
          balance := u256add info.balance
            (u256mul (gas_price_paid spec_london gas_price gas_priority_fee
              basefee) gas_used) }) :: ws2)) ∧
    (∀ ws1 ws2 addition, (∀ p ∈ ws1, p.1 ≠ bh) →
      Vm.apply_rewards spec_london bh gas_price gas_priority_fee basefee
          gas_used (ws1 ++ (bh, .LazyBalanceAddition addition) :: ws2) =
        some (ws1 ++ (bh, .LazyBalanceAddition (u256add addition
          (u256mul (gas_price_paid spec_london gas_price gas_priority_fee
            basefee) gas_used))) :: ws2)) := by
  refine ⟨rfl, rfl, ?_, ?_, ?_⟩
  · intro ws h
    exact applyRewardToWriteSet_absent bh _ ws h
  · intro ws1 ws2 info h
    exact applyRewardToWriteSet_basic bh _ info ws2 ws1 h
  · intro ws1 ws2 addition h
    exact applyRewardToWriteSet_lazy bh _ addition ws2 ws1 h

theorem vm_apply_rewards_spec_witness :
    (∀ p ∈ ([(4, MemoryValue.Storage 1)] : List (Loc × MemoryValue)),
      p.1 ≠ 9) ∧
    Vm.apply_rewards true 9 10 (some 3) 2 5 [(4, MemoryValue.Storage 1)] =
      some [(4, MemoryValue.Storage 1), (9, .LazyBalanceAddition 15)] := by
  refine ⟨by decide, ?_⟩
  exact (vm_apply_rewards_spec true 9 10 (some 3) 2 5).2.2.1
    [(4, MemoryValue.Storage 1)] (by decide)

/-! ### Dependency preprocessing (`pevm.rs`, claim C9) -/

/-- The fields of `TxEnv` consumed by `preprocess_dependencies`. -/
structure TxEnv where
  caller : Nat
  transact_to : Option Nat
  value : Nat
  data_empty : Bool
  deriving DecidableEq, Repr

/-- `TxIncarnationStatus` as used by `pevm.rs`. -/
inductive TxIncarnationStatus where
  | ReadyToExecute (i : TxIncarnation)
  | Executing (i : TxIncarnation)
  | Executed (i : TxIncarnation)
  | Validated (i : TxIncarnation)
  | Aborting (i : TxIncarnation)
  deriving DecidableEq, Repr

/-- The mutable state of the preprocessing pass: statuses, dependents,
dependencies, the per-address transaction index lists and the starting
validation index. -/
structure PreprocessState where
  transactions_status : TxIdx → TxIncarnationStatus
  transactions_dependents : TxIdx → List TxIdx
  transactions_dependencies : List (TxIdx × List TxIdx)
  tx_idxes_by_address : Nat → List TxIdx
  starting_validation_idx : Nat

/-- `transactions_dependencies.entry(t).or_default().insert(d)`: insert
`d` into the dependency set of `t`, creating the entry when absent. -/
def depsInsert : List (TxIdx × List TxIdx) → TxIdx → TxIdx →
    List (TxIdx × List TxIdx)
  | [], t, d => [(t, [d])]
  | (k, ds) :: rest, t, d =>
      if k = t then (k, if d ∈ ds then ds else ds ++ [d]) :: rest
      else (k, ds) :: depsInsert rest t d

/-- The `register_dependency` closure of `preprocess_dependencies`: set
the dependent's status to `Aborting(0)`, add it to the dependency's
dependent set, and record the dependency. -/
def register_dependency (s : PreprocessState)
    (tx_idx dependency_idx : TxIdx) : PreprocessState :=
  { s with
    transactions_status :=
      updateFun s.transactions_status tx_idx (.Aborting 0),
    transactions_dependents :=
      updateFun s.transactions_dependents dependency_idx
        (if tx_idx ∈ s.transactions_dependents dependency_idx
         then s.transactions_dependents dependency_idx
         else s.transactions_dependents dependency_idx ++ [tx_idx]),
    transactions_dependencies :=
      depsInsert s.transactions_dependencies tx_idx dependency_idx }

/-- The recipient whose balance is guaranteed to change: a `Call`
destination with a non-zero transferred value. -/
def recipient_with_changed_balance (tx : TxEnv) : Option Nat :=
  match tx.transact_to with
  | some to_address => if tx.value ≠ 0 then some to_address else none
  | none => none

/-- The end-of-iteration registration of a transaction into the
per-address index lists (sender always, recipient when its balance
changes). -/
def push_address_index (s : PreprocessState) (tx_idx : TxIdx) (tx : TxEnv) :
    PreprocessState :=
  let s1 := { s with
    tx_idxes_by_address :=
      updateFun s.tx_idxes_by_address tx.caller
        (s.tx_idxes_by_address tx.caller ++ [tx_idx]) }
  match recipient_with_changed_balance tx with
  | some to_address =>
      { s1 with
        tx_idxes_by_address :=
          updateFun s1.tx_idxes_by_address to_address
            (s1.tx_idxes_by_address to_address ++ [tx_idx]) }
  | none => s1

/-- The dependency-seeding step for one transaction with `tx_idx > 0`:
depend on the immediately preceding transaction when the beneficiary is
sender or (balance-changing) recipient, and otherwise on the latest
previous transaction sharing the sender resp. the recipient. -/
def register_tx_dependencies (beneficiary_address : Nat)
    (s : PreprocessState) (tx_idx : TxIdx) (tx : TxEnv) : PreprocessState :=
  if tx.caller = beneficiary_address ∨
      recipient_with_changed_balance tx = some beneficiary_address then
    register_dependency s tx_idx (tx_idx - 1)
  else
    let s1 := match (s.tx_idxes_by_address tx.caller).getLast? with
      | some prev_idx => register_dependency s tx_idx prev_idx
      | none => s
    match recipient_with_changed_balance tx with
    | some to_address =>
        match (s1.tx_idxes_by_address to_address).getLast? with
        | some prev_idx => register_dependency s1 tx_idx prev_idx
        | none => s1
    | none => s1

/-- The main loop of `preprocess_dependencies`.  `ratio_exceeded` is the
seeded-dependency ratio test (an `f64` comparison against 0.9 in the
source), abstracted as a function of the dependency-map size and the block
size; when it fires the pass returns `none` (sequential fallback). -/
def preprocess_go (beneficiary_address : Nat) (block_size : Nat)
    (ratio_exceeded : Nat → Nat → Bool) :
    List TxEnv → TxIdx → PreprocessState → Option PreprocessState
  | [], _, s => some s
  | tx :: rest, tx_idx, s =>
    let s := if s.starting_validation_idx = block_size ∧ tx_idx > 0 ∧
        tx.data_empty = false
      then { s with starting_validation_idx := tx_idx } else s
    if tx_idx > 0 then
      let s := register_tx_dependencies beneficiary_address s tx_idx tx
      if ratio_exceeded s.transactions_dependencies.length block_size then
        none
      else preprocess_go beneficiary_address block_size ratio_exceeded rest
        (tx_idx + 1) (push_address_index s tx_idx tx)
    else
      preprocess_go beneficiary_address block_size ratio_exceeded rest
        (tx_idx + 1) (push_address_index s tx_idx tx)

/-- `preprocess_dependencies`: run the seeding pass over the block from a
fresh state. -/
def preprocess_dependencies (ratio_exceeded : Nat → Nat → Bool)
    (beneficiary_address : Nat) (txs : List TxEnv) :
    Option PreprocessState :=
  preprocess_go beneficiary_address txs.length ratio_exceeded txs 0
    { transactions_status := fun _ => .ReadyToExecute 0,
      transactions_dependents := fun _ => [],
      transactions_dependencies := [],
      tx_idxes_by_address := fun _ => [],
      starting_validation_idx := txs.length }

/-! ### Cycle-freedom of the seeded dependencies -/

/-- The dependency-map invariant: every entry has a non-empty dependency
set whose members are strictly below the dependent index. -/
def DepsSound (deps : List (TxIdx × List TxIdx)) : Prop :=
  ∀ p ∈ deps, p.2 ≠ [] ∧ ∀ d ∈ p.2, d < p.1

/-- The dependents invariant: every registered dependent is strictly above
its blocker. -/
def DependentsSound (dependents : TxIdx → List TxIdx) : Prop :=
  ∀ dep t, t ∈ dependents dep → dep < t

/-- The per-address index lists only hold indexes of already processed
transactions. -/
def AddrIdxBound (s : PreprocessState) (n : Nat) : Prop :=
  ∀ a i, i ∈ s.tx_idxes_by_address a → i < n

theorem depsInsert_sound (t d : TxIdx) (hd : d < t) :
    ∀ (deps : List (TxIdx × List TxIdx)), DepsSound deps →
      DepsSound (depsInsert deps t d) := by
  intro deps
  induction deps with
  | nil =>
    intro _ p hp
    rw [depsInsert] at hp
    rcases List.mem_cons.mp hp with rfl | h
    · refine ⟨by simp, ?_⟩
      intro x hx
      rw [List.mem_singleton] at hx
      subst hx
      exact hd
    · exact absurd h (List.not_mem_nil _)
  | cons e rest ih =>
    intro h p hp
    obtain ⟨k, ds⟩ := e
    rw [depsInsert] at hp
    by_cases hk : k = t
    · rw [if_pos hk] at hp
      subst hk
      by_cases hmemd : d ∈ ds
      · rw [if_pos hmemd] at hp
        exact h p hp
      · rw [if_neg hmemd] at hp
        rcases List.mem_cons.mp hp with rfl | hmem
        · refine ⟨by simp, ?_⟩
          intro x hx
          rcases List.mem_append.mp hx with hx | hx
          · exact (h (k, ds) (List.mem_cons_self _ _)).2 x hx
          · rw [List.mem_singleton] at hx
            subst hx
            exact hd
        · exact h p (List.mem_cons_of_mem _ hmem)
    · rw [if_neg hk] at hp
      rcases List.mem_cons.mp hp with rfl | hmem
      · exact h _ (List.mem_cons_self _ _)
      · exact ih (fun q hq => h q (List.mem_cons_of_mem _ hq)) p hmem

theorem register_dependency_sound (s : PreprocessState)
    (t d : TxIdx) (hd : d < t)
    (h1 : DepsSound s.transactions_dependencies)
    (h2 : DependentsSound s.transactions_dependents) :
    DepsSound (register_dependency s t d).transactions_dependencies ∧
    DependentsSound (register_dependency s t d).transactions_dependents ∧
    (register_dependency s t d).tx_idxes_by_address =
      s.tx_idxes_by_address := by
  refine ⟨depsInsert_sound t d hd _ h1, ?_, rfl⟩
  intro dep t' ht'
  unfold register_dependency at ht'
  dsimp only at ht'
  unfold updateFun at ht'
  by_cases hdep : dep = d
  · rw [if_pos hdep] at ht'
    by_cases hmem : t ∈ s.transactions_dependents d
    · rw [if_pos hmem] at ht'
      exact hdep ▸ h2 d t' ht'
    · rw [if_neg hmem] at ht'
      rcases List.mem_append.mp ht' with h | h
      · exact hdep ▸ h2 d t' h
      · rw [List.mem_singleton] at h
        subst h
        rw [hdep]
        exact hd
  · rw [if_neg hdep] at ht'
    exact h2 dep t' ht'

theorem register_tx_dependencies_sound (ben : Nat) (s : PreprocessState)
    (n : TxIdx) (tx : TxEnv) (hn : 0 < n)
    (h1 : DepsSound s.transactions_dependencies)
    (h2 : DependentsSound s.transactions_dependents)
    (h3 : AddrIdxBound s n) :
    DepsSound (register_tx_dependencies ben s n tx).transactions_dependencies ∧
    DependentsSound
      (register_tx_dependencies ben s n tx).transactions_dependents ∧
    (register_tx_dependencies ben s n tx).tx_idxes_by_address =
      s.tx_idxes_by_address := by
  unfold register_tx_dependencies
  by_cases hben : tx.caller = ben ∨
      recipient_with_changed_balance tx = some ben
  · rw [if_pos hben]
    exact register_dependency_sound s n (n - 1) (Nat.sub_lt hn Nat.one_pos) h1 h2
  · rw [if_neg hben]
    -- the sender-based registration
    have step1 : ∀ (s1 : PreprocessState),
        DepsSound s1.transactions_dependencies →
        DependentsSound s1.transactions_dependents →
        s1.tx_idxes_by_address = s.tx_idxes_by_address →
        ∀ a,
        DepsSound (match (s1.tx_idxes_by_address a).getLast? with
          | some prev_idx => register_dependency s1 n prev_idx
          | none => s1).transactions_dependencies ∧
        DependentsSound (match (s1.tx_idxes_by_address a).getLast? with
          | some prev_idx => register_dependency s1 n prev_idx
          | none => s1).transactions_dependents ∧
        (match (s1.tx_idxes_by_address a).getLast? with
          | some prev_idx => register_dependency s1 n prev_idx
          | none => s1).tx_idxes_by_address = s.tx_idxes_by_address := by
      intro s1 hs1 hs2 hs3 a
      cases hlast : (s1.tx_idxes_by_address a).getLast? with
      | none => exact ⟨hs1, hs2, hs3⟩
      | some prev_idx =>
        have hprev : prev_idx < n := by
          apply h3 a
          rw [← hs3]
          exact List.mem_of_mem_getLast? hlast
        obtain ⟨ha, hb, hc⟩ :=
          register_dependency_sound s1 n prev_idx hprev hs1 hs2
        exact ⟨ha, hb, hc.trans hs3⟩
    obtain ⟨ha, hb, hc⟩ := step1 s h1 h2 rfl tx.caller
    cases hrec : recipient_with_changed_balance tx with
    | none => exact ⟨ha, hb, hc⟩
    | some to_address =>
      exact step1 _ ha hb hc to_address

theorem push_address_index_bound (s : PreprocessState) (n : TxIdx)
    (tx : TxEnv) (h : AddrIdxBound s n) :
    AddrIdxBound (push_address_index s n tx) (n + 1) ∧
    (push_address_index s n tx).transactions_dependencies =
      s.transactions_dependencies ∧
    (push_address_index s n tx).transactions_dependents =
      s.transactions_dependents := by
  unfold push_address_index
  have hstep : ∀ (f : Nat → List TxIdx), (∀ a i, i ∈ f a → i < n + 1) →
      ∀ b, ∀ a i, i ∈ (updateFun f b (f b ++ [n])) a → i < n + 1 := by
    intro f hf b a i hi
    unfold updateFun at hi
    by_cases hab : a = b
    · rw [if_pos hab] at hi
      rcases List.mem_append.mp hi with h | h
      · exact hf b i h
      · rw [List.mem_singleton] at h
        subst h
        exact Nat.lt_succ_self _
    · rw [if_neg hab] at hi
      exact hf a i hi
  have h' : ∀ a i, i ∈ s.tx_idxes_by_address a → i < n + 1 :=
    fun a i hi => Nat.lt_succ_of_lt (h a i hi)
  cases hrec : recipient_with_changed_balance tx with
  | none =>
    exact ⟨fun a i hi => hstep _ h' tx.caller a i hi, rfl, rfl⟩
  | some to_address =>
    refine ⟨?_, rfl, rfl⟩
    intro a i hi
    exact hstep _ (fun a' i' hi' => hstep _ h' tx.caller a' i' hi')
      to_address a i hi

theorem preprocess_go_sound (ben : Nat) (block_size : Nat)
    (ratio_exceeded : Nat → Nat → Bool) :
    ∀ (txs : List TxEnv) (n : TxIdx) (s s' : PreprocessState),
      preprocess_go ben block_size ratio_exceeded txs n s = some s' →
      DepsSound s.transactions_dependencies →
      DependentsSound s.transactions_dependents →
      AddrIdxBound s n →
      DepsSound s'.transactions_dependencies ∧
      DependentsSound s'.transactions_dependents := by
  intro txs
  induction txs with
  | nil =>
    intro n s s' hrun h1 h2 _
    rw [preprocess_go] at hrun
    injection hrun with hrun
    subst hrun
    exact ⟨h1, h2⟩
  | cons tx rest ih =>
    intro n s s' hrun h1 h2 h3
    rw [preprocess_go] at hrun
    set s0 := if s.starting_validation_idx = block_size ∧ n > 0 ∧
        tx.data_empty = false
      then { s with starting_validation_idx := n } else s with hs0
    have hs0deps : s0.transactions_dependencies =
        s.transactions_dependencies := by
      rw [hs0]; split <;> rfl
    have hs0dependents : s0.transactions_dependents =
        s.transactions_dependents := by
      rw [hs0]; split <;> rfl
    have hs0addr : s0.tx_idxes_by_address = s.tx_idxes_by_address := by
      rw [hs0]; split <;> rfl
    by_cases hn : n > 0
    · rw [if_pos hn] at hrun
      obtain ⟨ra, rb, rc⟩ := register_tx_dependencies_sound ben s0 n tx hn
        (hs0deps ▸ h1) (hs0dependents ▸ h2)
        (fun a i hi => h3 a i (by rw [← hs0addr]; exact hi))
      by_cases hratio : ratio_exceeded
          (register_tx_dependencies ben s0 n tx).transactions_dependencies.length
          block_size
      · rw [if_pos hratio] at hrun
        exact absurd hrun (by simp)
      · rw [if_neg hratio] at hrun
        obtain ⟨pa, pb, pc⟩ := push_address_index_bound
          (register_tx_dependencies ben s0 n tx) n tx
          (fun a i hi => by
            rw [rc, hs0addr] at hi
            exact h3 a i hi)
        refine ih (n + 1) _ s' hrun (pb ▸ ra) (pc ▸ rb) ?_
        intro a i hi
        exact pa a i hi
    · rw [if_neg hn] at hrun
      obtain ⟨pa, pb, pc⟩ := push_address_index_bound s0 n tx
        (fun a i hi => by
          rw [hs0addr] at hi
          exact h3 a i hi)
      refine ih (n + 1) _ s' hrun (pb ▸ hs0deps ▸ h1)
        (pc ▸ hs0dependents ▸ h2) ?_
      intro a i hi
      exact pa a i hi

/-- Claim C9: every (dependent, dependency) pair registered by
`preprocess_dependencies` — whether recorded in the dependency map or in
the dependents sets — satisfies dependent > dependency, and transaction 0
is never given a dependency. -/
theorem preprocess_dependencies_cycle_free
    (ratio_exceeded : Nat → Nat → Bool) (ben : Nat) (txs : List TxEnv)
    (s' : PreprocessState)
    (hrun : preprocess_dependencies ratio_exceeded ben txs = some s') :
    (∀ p ∈ s'.transactions_dependencies, ∀ d ∈ p.2, d < p.1) ∧
    (∀ dep t, t ∈ s'.transactions_dependents dep → dep < t) ∧
    (∀ ds, (0, ds) ∉ s'.transactions_dependencies) := by
  obtain ⟨h1, h2⟩ := preprocess_go_sound ben txs.length ratio_exceeded txs 0
    _ s' hrun (by intro p hp; exact absurd hp (List.not_mem_nil _))
    (by intro dep t ht; exact absurd ht (List.not_mem_nil _))
    (by intro a i hi; exact absurd hi (List.not_mem_nil _))
  refine ⟨fun p hp => (h1 p hp).2, h2, ?_⟩
  intro ds hds
  obtain ⟨hne, hlt⟩ := h1 (0, ds) hds
  cases hmatch : ds with
  | nil => exact hne hmatch
  | cons d rest =>
    have := hlt d (by rw [hmatch]; exact List.mem_cons_self _ _)
    exact Nat.not_lt_zero d this

/-- A three-transaction block: 0 and 2 share the sender 50, so 2 is seeded
to depend on 0. -/
def txsC9 : List TxEnv :=
  [⟨50, some 60, 1, true⟩, ⟨51, some 61, 1, true⟩, ⟨50, some 62, 1, true⟩]

theorem preprocess_dependencies_cycle_free_witness :
    (preprocess_dependencies (fun _ _ => false) 99 txsC9).isSome = true ∧
    ∀ s', preprocess_dependencies (fun _ _ => false) 99 txsC9 = some s' →
      (∀ p ∈ s'.transactions_dependencies, ∀ d ∈ p.2, d < p.1) ∧
      (∀ ds, (0, ds) ∉ s'.transactions_dependencies) := by
  refine ⟨rfl, ?_⟩
  intro s' hs'
  obtain ⟨h1, _, h3⟩ :=
    preprocess_dependencies_cycle_free (fun _ _ => false) 99 txsC9 s' hs'
  exact ⟨h1, h3⟩

end BlockSTM
